import Mathlib

/-
Verification of the learnings repository.

The repository contains a unit-test file exercising an Animal/Dog/Cat/Zoo
class hierarchy and Fibonacci utilities whose headers (CPlusPlus/Animal.h,
Dog.h, Cat.h, Zoo.h, fib.h) are not part of the repository snapshot; those
components are modelled from the specification, with the literal expected
outputs of the unit tests as anchors.  The C++17 demonstration file is in
the snapshot, and its functions maybeDivide and get_attribute are embedded
directly from the source.
-/

/-- Modelled from the spec: the concrete variant of an animal.  The headers
CPlusPlus/Animal.h, Dog.h, Cat.h are missing from the snapshot; only the
unit tests exercising them are present.  `base` is the Animal base class,
`dog` and `cat` the two concrete subclasses, which add no attributes and
differ only in their speak output. -/
inductive AnimalKind where
  | base
  | dog
  | cat

/-- Modelled from the spec: an Animal has a `name` (text) and an `age`
(integer greater than or equal to zero, hence `Nat`); the concrete variant
is recorded as an `AnimalKind` tag. -/
structure Animal where
  kind : AnimalKind
  name : String
  age : Nat

/-- Modelled from the spec: `speak()` writes one newline-terminated line to
standard output, and polymorphic dispatch selects the override by the
concrete variant.  The base class writes `name ++ " says hello, age " ++ age`,
Dog writes `name ++ " says: Woof!"`, Cat writes `name ++ " says: Meow!"`.
The returned string is the text written to standard output. -/
def Animal.speak (a : Animal) : String :=
  match a.kind with
  | .base => a.name ++ " says hello, age " ++ toString a.age ++ "\n"
  | .dog  => a.name ++ " says: Woof!" ++ "\n"
  | .cat  => a.name ++ " says: Meow!" ++ "\n"

/-- Modelled from the spec: `speak()` as a state transformer.  It writes its
line and has no other effect, so the animal comes back unchanged. -/
def Animal.speakOp (a : Animal) : Animal × String := (a, a.speak)

/-- Modelled from the spec: a Zoo owns an ordered sequence of animals,
insertion order preserved.  Ownership is exclusive, so the sequence holds the
animals themselves. -/
structure Zoo where
  animals : List Animal

/-- Modelled from the spec: `addAnimal` transfers the newly constructed
animal into the Zoo's sequence, appended at the end. -/
def Zoo.addAnimal (z : Zoo) (a : Animal) : Zoo := ⟨z.animals ++ [a]⟩

/-- Modelled from the spec: `listAnimalNames()` writes the literal text
`"Animals in the zoo: "`, then each animal's name in insertion order with a
single space after each name, then a newline.  The loop over the sequence is
a left fold over the emitted output. -/
def Zoo.listAnimalNames (z : Zoo) : String :=
  z.animals.foldl (fun out a => out ++ a.name ++ " ") "Animals in the zoo: " ++ "\n"

/-- Modelled from the spec: `listAnimalNames()` as a state transformer on the
Zoo.  It only reads the sequence, so the Zoo comes back unchanged. -/
def Zoo.listOp (z : Zoo) : Zoo × String := (z, z.listAnimalNames)

/-- A Zoo built by adding the given animals, in order, to an initially empty
Zoo, as the unit test ZooTest.AddAnimalsAndListNames does. -/
def Zoo.ofAnimals (as : List Animal) : Zoo := as.foldl Zoo.addAnimal ⟨[]⟩

/-- The concatenation of the animals' names, each followed by one space:
the text the spec says appears between the literal heading and the final
newline of `listAnimalNames()`. -/
def namesOut : List Animal → String
  | [] => ""
  | a :: rest => a.name ++ " " ++ namesOut rest

/-- Modelled from the spec: the loop of `generateFibonacci` (fib.h is missing
from the snapshot).  While `a < n` the current value `a` is appended to the
result and the pair advances from `(a, b)` to `(b, a + b)`; `fuel` bounds the
number of iterations, and the caller supplies enough for the loop to reach
its natural exit, as proved below. -/
def fibLoop : Nat → Nat → Nat → Nat → List Nat
  | 0, _, _, _ => []
  | fuel + 1, n, a, b => if a < n then a :: fibLoop fuel n b (a + b) else []

/-- Modelled from the spec: `generateFibonacci n` produces the Fibonacci
numbers strictly below the bound `n`, in generation order, starting from the
pair `(0, 1)`.  `n + 2` iterations always suffice because
`n ≤ Nat.fib (n + 1)`. -/
def generateFibonacci (n : Nat) : List Nat := fibLoop (n + 2) n 0 1

/-- The first-terms generator of the unit test FibonacciTest.GenerateFirstFew:
`std::generate` over a vector of the given size yields `a` and advances
`(a, b)` to `(b, a + b)` each step. -/
def fibFirst : Nat → Nat → Nat → List Nat
  | 0, _, _ => []
  | k + 1, a, b => a :: fibFirst k b (a + b)

/-- The first `count` terms of the unbounded Fibonacci sequence, generated
from the pair `(0, 1)` as in FibonacciTest.GenerateFirstFew. -/
def firstFibTerms (count : Nat) : List Nat := fibFirst count 0 1

/-- Modelled from the spec: `doubleAge(x)` returns `2 * x` (fib.h is missing
from the snapshot).  The unit test checks it both at compile time via
static_assert and at run time, and requires both evaluation modes to yield
identical results; in this pure embedding the two modes are one function. -/
def doubleAge (x : Int) : Int := 2 * x

/-- The C++17 demo value type `std::variant` of int, double and std::string.
The double alternative carries a `Float` payload; the embedded functions
perform no arithmetic on it. -/
inductive AttributeValue where
  | intV : Int → AttributeValue
  | doubleV : Float → AttributeValue
  | stringV : String → AttributeValue

/-- A `std::map` from std::string to AttributeValue: an entry list kept in
strictly increasing key order, the std::map class invariant. -/
structure AttrMap where
  entries : List (String × AttributeValue)
  sorted : entries.Pairwise (fun p q => p.1 < q.1)

/-- Embeds `std::map::find` on the entry list: the first entry whose key
equals the probe (unique, by the sortedness invariant), or none past the
end. -/
def mapFind (l : List (String × AttributeValue)) (key : String) :
    Option (String × AttributeValue) :=
  match l with
  | [] => none
  | e :: rest => if e.1 = key then some e else mapFind rest key

/-- Embeds `get_attribute` from C++17.cpp: if `attrs.find(key)` lands on an
entry, return its mapped value, otherwise nullopt. -/
def get_attribute (attrs : AttrMap) (key : String) : Option AttributeValue :=
  match mapFind attrs.entries key with
  | some e => some e.2
  | none => none

/-- Since `get_attribute` takes the map by const reference, as a state
transformer it returns the map unchanged alongside the lookup result. -/
def get_attribute_op (attrs : AttrMap) (key : String) :
    AttrMap × Option AttributeValue :=
  (attrs, get_attribute attrs key)

/-- Embeds `maybeDivide` from C++17.cpp: nullopt when the divisor is zero,
otherwise the C++ quotient `a / b`, which truncates toward zero
(`Int.tdiv`). -/
def maybeDivide (a b : Int) : Option Int :=
  if b = 0 then none else some (a.tdiv b)

/-- Every natural number is at most the next Fibonacci number:
`n ≤ Nat.fib (n + 1)`.  This bounds the number of loop iterations of
`generateFibonacci`. -/
theorem le_fib_succ (n : Nat) : n ≤ Nat.fib (n + 1) := by
  by_cases h : 5 ≤ n + 1
  · exact le_trans (Nat.le_succ n) (Nat.le_fib_self h)
  · have h4 : n ≤ 3 := by omega
    interval_cases n <;> decide

/-- For every bound `n` there is a cut index `m ≤ n + 1` such that the
Fibonacci numbers strictly below `n` are exactly those at indices below
`m`. -/
theorem exists_fib_cut (n : Nat) :
    ∃ m : Nat, m ≤ n + 1 ∧ ∀ k : Nat, (Nat.fib k < n ↔ k < m) := by
  have hP : ∃ m : Nat, n ≤ Nat.fib m := ⟨n + 1, le_fib_succ n⟩
  refine ⟨Nat.find hP, Nat.find_min' hP (le_fib_succ n), fun k => ?_⟩
  constructor
  · intro hk
    by_contra hkm
    push_neg at hkm
    have := le_trans (Nat.find_spec hP) (Nat.fib_mono hkm)
    omega
  · intro hk
    have := Nat.find_min hP hk
    omega

/-- The Fibonacci loop, started at the consecutive pair at index `i` with
enough fuel to reach the cut `m`, emits exactly the Fibonacci numbers at
indices `i, i+1, ..., m-1`. -/
theorem fibLoop_eq (n m : Nat) (hm : ∀ k : Nat, (Nat.fib k < n ↔ k < m)) :
    ∀ (fuel i : Nat), m ≤ i + fuel →
      fibLoop fuel n (Nat.fib i) (Nat.fib (i + 1)) =
        (List.range' i (m - i)).map Nat.fib := by
  intro fuel
  induction fuel with
  | zero =>
    intro i h
    have h0 : m - i = 0 := by omega
    simp [fibLoop, h0]
  | succ fuel ih =>
    intro i h
    by_cases hai : Nat.fib i < n
    · have him : i < m := (hm i).mp hai
      have hrec := ih (i + 1) (by omega)
      have hmi : m - i = (m - (i + 1)) + 1 := by omega
      simp only [fibLoop, if_pos hai]
      rw [hmi, List.range'_succ, List.map_cons]
      refine congrArg (Nat.fib i :: ·) ?_
      rw [← Nat.fib_add_two]
      exact hrec
    · have him : m ≤ i := by
        by_contra hmi
        push_neg at hmi
        exact hai ((hm i).mpr hmi)
      have h0 : m - i = 0 := by omega
      simp [fibLoop, if_neg hai, h0]

/-- Characterisation of `generateFibonacci`: for every bound `n` there is a
cut `m ≤ n + 1` with `generateFibonacci n` the initial Fibonacci segment of
length `m`, and the indices below `m` are exactly those whose Fibonacci
number is below `n`.  In particular the fuel `n + 2` supplied by
`generateFibonacci` lets the loop reach its natural exit. -/
theorem generateFibonacci_eq (n : Nat) :
    ∃ m : Nat, m ≤ n + 1 ∧
      generateFibonacci n = (List.range m).map Nat.fib ∧
      ∀ k : Nat, (Nat.fib k < n ↔ k < m) := by
  obtain ⟨m, hm1, hm2⟩ := exists_fib_cut n
  refine ⟨m, hm1, ?_, hm2⟩
  have h := fibLoop_eq n m hm2 (n + 2) 0 (by omega)
  simpa [generateFibonacci, List.range_eq_range'] using h

/-- Folding `addAnimal` over a list of animals appends them, in order, to
the Zoo's sequence. -/
theorem foldl_addAnimal (as : List Animal) :
    ∀ z : Zoo, as.foldl Zoo.addAnimal z = ⟨z.animals ++ as⟩ := by
  induction as with
  | nil => intro z; simp
  | cons a rest ih => intro z; simp [Zoo.addAnimal, ih]

/-- A Zoo built from a list of animals holds exactly those animals in
insertion order. -/
theorem ofAnimals_animals (as : List Animal) : (Zoo.ofAnimals as).animals = as := by
  simp [Zoo.ofAnimals, foldl_addAnimal]

/-- The output fold of `listAnimalNames` appends to its accumulator the
names of the animals, each followed by one space. -/
theorem foldl_names (as : List Animal) :
    ∀ out : String,
      as.foldl (fun o a => o ++ a.name ++ " ") out = out ++ namesOut as := by
  induction as with
  | nil => intro out; simp [namesOut]
  | cons a rest ih =>
    intro out
    rw [List.foldl_cons, ih, namesOut, String.append_assoc out a.name " ",
      String.append_assoc out (a.name ++ " ") (namesOut rest)]

/-- The embedded `std::map::find` succeeds exactly when the key occurs among
the entry keys. -/
theorem mapFind_isSome (l : List (String × AttributeValue)) (key : String) :
    ((mapFind l key).isSome = true) ↔ key ∈ l.map Prod.fst := by
  induction l with
  | nil => simp [mapFind]
  | cons e rest ih =>
    by_cases he : e.1 = key
    · simp [mapFind, he]
    · simp only [mapFind, if_neg he, List.map_cons, List.mem_cons, ih]
      constructor
      · intro hk; exact Or.inr hk
      · rintro (hk | hk)
        · exact absurd hk.symm he
        · exact hk

/-- On an entry list with strictly increasing keys (the std::map invariant),
the embedded `std::map::find` returns the entry of any contained binding. -/
theorem mapFind_of_mem :
    ∀ l : List (String × AttributeValue),
      l.Pairwise (fun p q => p.1 < q.1) →
      ∀ (key : String) (v : AttributeValue),
        (key, v) ∈ l → mapFind l key = some (key, v) := by
  intro l
  induction l with
  | nil => intro _ key v hmem; cases hmem
  | cons e rest ih =>
    intro hs key v hmem
    rcases List.mem_cons.mp hmem with he | hrest
    · rw [← he]
      simp [mapFind]
    · have hlt : e.1 < key := (List.pairwise_cons.mp hs).1 (key, v) hrest
      have hne : ¬ (e.1 = key) := ne_of_lt hlt
      simp only [mapFind, if_neg hne]
      exact ih (List.pairwise_cons.mp hs).2 key v hrest

/-- C1: for every non-negative bound `n`, `generateFibonacci n` is the
ordered sequence of all Fibonacci numbers strictly less than `n`, i.e. the
initial segment `fib 0, fib 1, ..., fib (m-1)` of the Fibonacci sequence
`0, 1, 1, 2, 3, ...` where the indices below the cut `m` are exactly those
whose Fibonacci number is below `n`; in particular `generateFibonacci 10`
equals `[0, 1, 1, 2, 3, 5, 8]` and the first five terms of the unbounded
sequence are `[0, 1, 1, 2, 3]`. -/
theorem generateFibonacci_correct :
    (∀ n : Nat, ∃ m : Nat,
        generateFibonacci n = (List.range m).map Nat.fib ∧
        ∀ k : Nat, (Nat.fib k < n ↔ k < m)) ∧
    generateFibonacci 10 = [0, 1, 1, 2, 3, 5, 8] ∧
    firstFibTerms 5 = [0, 1, 1, 2, 3] := by
  refine ⟨fun n => ?_, by decide, by decide⟩
  obtain ⟨m, _, h2, h3⟩ := generateFibonacci_eq n
  exact ⟨m, h2, h3⟩

/-- C2: for every Zoo built by adding animals in some order,
`listAnimalNames` outputs exactly the literal heading
`"Animals in the zoo: "`, then each animal's name in insertion order with a
single space after each name, then a newline; for a Zoo holding
Dog Buddy then Cat Mittens the output is
`"Animals in the zoo: Buddy Mittens \n"`. -/
theorem listAnimalNames_correct :
    (∀ as : List Animal,
        Zoo.listAnimalNames (Zoo.ofAnimals as) =
          "Animals in the zoo: " ++ namesOut as ++ "\n") ∧
    Zoo.listAnimalNames (Zoo.ofAnimals
        [⟨.dog, "Buddy", 4⟩, ⟨.cat, "Mittens", 2⟩]) =
      "Animals in the zoo: Buddy Mittens \n" := by
  constructor
  · intro as
    simp only [Zoo.listAnimalNames, ofAnimals_animals, foldl_names]
  · rfl

/-- C3: for every name and age, a Dog's `speak` writes exactly
`name ++ " says: Woof!"` plus newline and a Cat's writes exactly
`name ++ " says: Meow!"` plus newline; the output is determined by the
concrete variant tag alone (in this embedding there is no static type, so
dispatch is by construction on the variant).  The unit-test instances
Rex the Dog and Whiskers the Cat produce their literal expected lines. -/
theorem dog_cat_speak_correct :
    (∀ (name : String) (age : Nat),
        Animal.speak ⟨.dog, name, age⟩ = name ++ " says: Woof!" ++ "\n") ∧
    (∀ (name : String) (age : Nat),
        Animal.speak ⟨.cat, name, age⟩ = name ++ " says: Meow!" ++ "\n") ∧
    Animal.speak ⟨.dog, "Rex", 5⟩ = "Rex says: Woof!\n" ∧
    Animal.speak ⟨.cat, "Whiskers", 2⟩ = "Whiskers says: Meow!\n" :=
  ⟨fun _ _ => rfl, fun _ _ => rfl, rfl, rfl⟩

/-- C4: for every name and age, a base Animal's `speak` writes exactly
`name ++ " says hello, age " ++ age` plus newline; for the unit-test
instance TestAnimal aged 3 the output is
`"TestAnimal says hello, age 3\n"`. -/
theorem animal_speak_correct :
    (∀ (name : String) (age : Nat),
        Animal.speak ⟨.base, name, age⟩ =
          name ++ " says hello, age " ++ toString age ++ "\n") ∧
    Animal.speak ⟨.base, "TestAnimal", 3⟩ = "TestAnimal says hello, age 3\n" :=
  ⟨fun _ _ => rfl, rfl⟩

/-- C5: `doubleAge x` returns `2 * x` for every integer, and
`doubleAge 6 = 12`.  The embedding is a single pure function, so the
compile-time and run-time evaluation modes of the source coincide on it by
construction. -/
theorem doubleAge_correct :
    (∀ x : Int, doubleAge x = 2 * x) ∧ doubleAge 6 = 12 :=
  ⟨fun _ => rfl, rfl⟩

/-- C6: calling `listAnimalNames` twice in succession on an unmodified Zoo
yields the same output both times, and the Zoo after the two calls is the
original Zoo. -/
theorem listAnimalNames_idempotent :
    ∀ z : Zoo,
      z.listOp.2 = z.listOp.1.listOp.2 ∧ z.listOp.1.listOp.1 = z :=
  fun _ => ⟨rfl, rfl⟩

/-- C7: every core operation terminates and is total on its valid input
domain: the Fibonacci loop reaches its natural exit within `n + 1`
iterations (so the result holds at most `n + 1` terms), `speak` always
produces a nonempty line, `addAnimal` always extends the sequence by exactly
one animal, `listAnimalNames` always returns its output with the Zoo
intact, and `doubleAge` is total; no operation has an error state. -/
theorem coreOps_total :
    (∀ n : Nat, (generateFibonacci n).length ≤ n + 1) ∧
    (∀ a : Animal, 0 < a.speak.length) ∧
    (∀ (z : Zoo) (a : Animal),
        (z.addAnimal a).animals.length = z.animals.length + 1) ∧
    (∀ z : Zoo, z.listOp = (z, z.listAnimalNames)) ∧
    (∀ x : Int, doubleAge x = x + x) := by
  refine ⟨?_, ?_, ?_, fun z => rfl, fun x => two_mul x⟩
  · intro n
    obtain ⟨m, hm1, h2, _⟩ := generateFibonacci_eq n
    rw [h2]
    simpa using hm1
  · intro a
    obtain ⟨k, name, age⟩ := a
    have hnl : ("\n" : String).length = 1 := rfl
    cases k <;> (simp only [Animal.speak, String.length_append]; omega)
  · intro z a
    simp [Zoo.addAnimal]

/-- C8: an animal's `name` and `age` are immutable: speaking returns the
animal unchanged, `addAnimal` stores the transferred animal as constructed,
and `listAnimalNames` leaves every stored animal untouched. -/
theorem animal_immutable :
    (∀ a : Animal, a.speakOp.1.name = a.name ∧ a.speakOp.1.age = a.age) ∧
    (∀ (z : Zoo) (a : Animal), (z.addAnimal a).animals = z.animals ++ [a]) ∧
    (∀ z : Zoo, z.listOp.1.animals = z.animals) :=
  ⟨fun _ => ⟨rfl, rfl⟩, fun _ _ => rfl, fun _ => rfl⟩

/-- C9: for all integers `a` and `b`, `maybeDivide a b` is nullopt exactly
when `b = 0`, and otherwise carries the C++ quotient of `a` by `b`
(truncation toward zero); no division is performed when `b` is zero. -/
theorem maybeDivide_correct :
    ∀ a b : Int,
      (maybeDivide a b = none ↔ b = 0) ∧
      (b ≠ 0 → maybeDivide a b = some (a.tdiv b)) := by
  intro a b
  refine ⟨⟨?_, ?_⟩, ?_⟩
  · intro h
    by_contra hb
    simp [maybeDivide, hb] at h
  · intro hb
    simp [maybeDivide, hb]
  · intro hb
    simp [maybeDivide, hb]

/-- Witness for C9 at the concrete inputs `(10, 2)` and `(10, 0)`. -/
theorem maybeDivide_correct_witness :
    maybeDivide 10 2 = some (Int.tdiv 10 2) ∧ maybeDivide 10 0 = none :=
  ⟨(maybeDivide_correct 10 2).2 (by decide), (maybeDivide_correct 10 0).1.mpr rfl⟩

/-- A concrete singleton attribute map, as the demo's `attributes` map maps
the key `age` to an int value. -/
def sampleAttrs : AttrMap :=
  ⟨[("age", AttributeValue.intV 30)], List.pairwise_singleton _ _⟩

/-- C10: for every map and key, `get_attribute` succeeds exactly when the
key is present, in which case it returns the mapped value, and it leaves
the map unchanged. -/
theorem get_attribute_correct :
    ∀ (attrs : AttrMap) (key : String),
      (((get_attribute attrs key).isSome = true) ↔
        key ∈ attrs.entries.map Prod.fst) ∧
      (∀ v : AttributeValue,
        (key, v) ∈ attrs.entries → get_attribute attrs key = some v) ∧
      (get_attribute_op attrs key).1 = attrs := by
  intro attrs key
  refine ⟨?_, ?_, rfl⟩
  · rw [← mapFind_isSome attrs.entries key]
    unfold get_attribute
    cases h : mapFind attrs.entries key <;> simp [h]
  · intro v hv
    unfold get_attribute
    rw [mapFind_of_mem attrs.entries attrs.sorted key v hv]

/-- Witness for C10: looking up the key `age` in the concrete sample map
yields its mapped value. -/
theorem get_attribute_correct_witness :
    get_attribute sampleAttrs "age" = some (AttributeValue.intV 30) :=
  (get_attribute_correct sampleAttrs "age").2.1 (AttributeValue.intV 30)
    (List.Mem.head _)
